import Mathlib

/-!
# Verification of the snapshot-to-document assembler (`src/addon.cpp`)

A shallow embedding of the text-processing core of `addon.cpp`:

* `generateJson` (lines 30-60), the document assembler;
* the tail of `ParseRDB` (lines 154-200): section extraction by label search,
  the separator clean-up, the serialisation of the collected key types and the
  final assembly.

A `std::string` is modelled as the list of its characters (`Str`); `size_t`
values are natural numbers reduced modulo `2 ^ 64` wherever the source does
arithmetic on them.  An exception thrown inside the `try` block of `ParseRDB`
and a violated library precondition are explicit `Fault` results.
-/

namespace Addon

/-- A `std::string`, as the list of its characters. -/
abbrev Str := List Char

/-! ## Document assembler: `generateJson` (lines 30-60) -/

/-- Prefix written before the metadata section (line 36). -/
def auxOpen : Str := "\x7b\"__aux__\":".toList

/-- Prefix written before the size-statistics section (line 39). -/
def dbSizeOpen : Str := "\x7b\"__dbsize__\":".toList

/-- Prefix written before the type-registry section (line 45). -/
def typesOpen : Str := "\x7b\"__types__\":".toList

/-- The output loop of lines 52-55: object number `i` is preceded by a comma
when `i > 0`. -/
def emitObjects : List Str → Nat → Str → Str
  | [], _, jsonData => jsonData
  | obj :: rest, i, jsonData =>
      emitObjects rest (i + 1) ((if i > 0 then jsonData ++ [','] else jsonData) ++ obj)

/-- The function `generateJson` of lines 30-60. -/
def generateJson (auxInfo dbSizeInfo keyValuePairs typeInfo : Str) : Str :=
  let jsonObjects : List Str := []
  let jsonObjects :=
    if auxInfo ≠ [] then jsonObjects ++ [auxOpen ++ auxInfo ++ ['}']] else jsonObjects
  let jsonObjects :=
    if dbSizeInfo ≠ [] then jsonObjects ++ [dbSizeOpen ++ dbSizeInfo ++ ['}']] else jsonObjects
  let jsonObjects :=
    if keyValuePairs ≠ [] then jsonObjects ++ [['{'] ++ keyValuePairs ++ ['}']] else jsonObjects
  let jsonObjects :=
    if typeInfo ≠ [] then jsonObjects ++ [typesOpen ++ typeInfo ++ ['}']] else jsonObjects
  let jsonData : Str := ['[']
  let jsonData := emitObjects jsonObjects 0 jsonData
  jsonData ++ [']']

/-! ## Key-type registry (lines 16-19, 109-113, 184-191) -/

/-- The record `KeyTypeInfo` of lines 16-19. -/
structure KeyTypeInfo where
  key : Str
  dataType : Int
  deriving DecidableEq, Repr

/-- The constructor `std::string(const char*)`, which line 111 applies to the
character pointer `key`: the characters before the first NUL. -/
def cString (bulk : Str) : Str := bulk.takeWhile (· ≠ Char.ofNat 0)

/-- The callback `handleNewKey` of lines 109-113: a record made of the
reported key, read as a C string, and of the reported type is appended to the
collected key types. -/
def handleNewKey (types : List KeyTypeInfo) (key : Str) (dataType : Int) : List KeyTypeInfo :=
  types ++ [⟨cString key, dataType⟩]

/-- The key types collected when the decoder reports the given keys, in this
order, each through one call of `handleNewKey` on the initially empty vector
of line 79. -/
def recordAll (reported : List (Str × Int)) : List KeyTypeInfo :=
  reported.foldl (fun types r => handleNewKey types r.1 r.2) []

/-- The library function `std::to_string(int)`: decimal digits, with a leading
minus sign for a negative value. -/
def to_string (n : Int) : Str :=
  if n < 0 then '-' :: Nat.toDigits 10 n.natAbs else Nat.toDigits 10 n.toNat

/-- The loop body of lines 187-189, on the pair `(typeJson, first)`. -/
def typeStep (st : Str × Bool) (type : KeyTypeInfo) : Str × Bool :=
  let typeJson := if !st.2 then st.1 ++ [','] else st.1
  (typeJson ++ (['"'] ++ type.key ++ "\":".toList ++ to_string type.dataType), false)

/-- The serialisation of the collected key types, lines 184-191. -/
def typeJsonOf (keyTypes : List KeyTypeInfo) : Str :=
  (keyTypes.foldl typeStep (['{'], true)).1 ++ ['}']

/-- The text of one registry entry: the key between double quotes, a colon and
the type code in decimal. -/
def typeEntry (type : KeyTypeInfo) : Str :=
  "\"".toList ++ type.key ++ "\":".toList ++ to_string type.dataType

/-- Wrapping of one input of the assembler: nothing for an empty input, else
the input between `pre` and a closing brace. -/
def wrapped (pre input : Str) : List Str :=
  if input = [] then [] else [pre ++ input ++ ['}']]

/-! ## Section extraction: the tail of `ParseRDB` (lines 154-200) -/

/-- What ends the `try` block of `ParseRDB` without a document. -/
inductive Fault where
  /-- `std::out_of_range`, thrown by `substr` when `pos > size()`; line 198
  catches it and line 199 rethrows it as the addon error. -/
  | out_of_range
  /-- `front()` or `back()` called on an empty string: the library requires
  `!empty()`, the behaviour is undefined. -/
  | empty_string
  deriving DecidableEq, Repr

deriving instance DecidableEq for Except

/-- Number of values of `size_t`. -/
def sizeRange : Nat := 2 ^ 64

/-- The constant `std::string::npos`, the largest `size_t`. -/
def npos : Nat := sizeRange - 1

/-- Addition of `size_t`. -/
def sizeAdd (a b : Nat) : Nat := (a + b) % sizeRange

/-- Subtraction of `size_t`. -/
def sizeSub (a b : Nat) : Nat := (a % sizeRange + sizeRange - b % sizeRange) % sizeRange

/-- Forward search over the tail `t` of the string that begins at index `i`. -/
def findFrom (pat : Str) : Str → Nat → Nat
  | [], i => if pat = [] then i else npos
  | c :: t, i => if pat.isPrefixOf (c :: t) then i else findFrom pat t (i + 1)

/-- The member `std::string::find(pat, pos)`: the least index `i ≥ pos` at which
`pat` occurs, `npos` when there is none. -/
def find (s pat : Str) (pos : Nat) : Nat :=
  if pos > s.length then npos else findFrom pat (s.drop pos) pos

/-- Search over the tail `t` that begins at index `i`, keeping the last hit. -/
def rfindFrom (pat : Str) : Str → Nat → Nat → Nat
  | [], i, best => if pat = [] then i else best
  | c :: t, i, best => rfindFrom pat t (i + 1) (if pat.isPrefixOf (c :: t) then i else best)

/-- The member `std::string::rfind(pat)`: the greatest index at which `pat`
occurs, `npos` when there is none. -/
def rfind (s pat : Str) : Nat := rfindFrom pat s 0 npos

/-- The member `std::string::substr(pos, count)`. -/
def substr (s : Str) (pos count : Nat) : Except Fault Str :=
  if pos > s.length then .error .out_of_range else .ok ((s.drop pos).take count)

/-- The member `std::string::front()`. -/
def front (s : Str) : Except Fault Char :=
  match s with
  | [] => .error .empty_string
  | c :: _ => .ok c

/-- The member `std::string::back()`. -/
def back (s : Str) : Except Fault Char :=
  match s.getLast? with
  | none => .error .empty_string
  | some c => .ok c

/-- The label searched for on line 156. -/
def auxLabel : Str := "\"__aux__\":".toList

/-- The label searched for on line 157. -/
def dbSizeLabel : Str := "\"__dbsize__\":".toList

/-- Lines 160-164 with `label = auxLabel` and lines 167-171 with
`label = dbSizeLabel`: the text from the first `{` at or after the label
through the first `}` at or after that `{`. -/
def extractObject (jsonData label : Str) : Except Fault Str :=
  let start := find jsonData label 0
  if start ≠ npos then
    let objStart := find jsonData ['{'] start
    let objEnd := sizeAdd (find jsonData ['}'] objStart) 1
    substr jsonData objStart (sizeSub objEnd objStart)
  else
    .ok []

/-- Lines 179-180: one leading comma and then one trailing comma removed. -/
def stripCommas (keyValuePairs : Str) : Except Fault Str := do
  let c ← front keyValuePairs
  let keyValuePairs ← if c = ',' then substr keyValuePairs 1 npos else pure keyValuePairs
  let c ← back keyValuePairs
  if c = ',' then substr keyValuePairs 0 (sizeSub keyValuePairs.length 1)
  else pure keyValuePairs

/-- Lines 174-181: the key-value section. -/
def extractEntries (jsonData : Str) : Except Fault Str :=
  let dbSizeStart := find jsonData dbSizeLabel 0
  if dbSizeStart ≠ npos then do
    let kvStart := sizeAdd (find jsonData ['}'] dbSizeStart) 1
    let kvEnd := rfind jsonData ['}']
    let keyValuePairs ← substr jsonData kvStart (sizeSub kvEnd kvStart)
    stripCommas keyValuePairs
  else
    .ok []

/-- Lines 155-181: the three sections `(auxInfo, dbSizeInfo, keyValuePairs)`. -/
def extractSections (jsonData : Str) : Except Fault (Str × Str × Str) := do
  let auxInfo ← extractObject jsonData auxLabel
  let dbSizeInfo ← extractObject jsonData dbSizeLabel
  let keyValuePairs ← extractEntries jsonData
  pure (auxInfo, dbSizeInfo, keyValuePairs)

/-- Lines 154-200 of `ParseRDB`: from the flat document read back on line 150
and the key types collected by the callback of lines 109-113 to the returned
text, or to the fault that line 199 reports. -/
def ParseRDB (jsonData : Str) (keyTypes : List KeyTypeInfo) : Except Fault Str := do
  let (auxInfo, dbSizeInfo, keyValuePairs) ← extractSections jsonData
  pure (generateJson auxInfo dbSizeInfo keyValuePairs (typeJsonOf keyTypes))

/-! ## The section the specification describes

The specification locates a section by brace-depth counting.  The definitions
below follow its words; they are compared with `extractObject` further down. -/

/-- The suffix of a document that starts at the first occurrence of `label`. -/
def suffixAtLabel (label : Str) : Str → Option Str
  | [] => if label = [] then some [] else none
  | c :: t => if label.isPrefixOf (c :: t) then some (c :: t) else suffixAtLabel label t

/-- Brace-depth counting with `depth` braces open: the text up to and
including the brace that closes the outermost one. -/
def closeAt : Nat → Str → Option Str
  | _, [] => none
  | depth, c :: t =>
      if c = '{' then (closeAt (depth + 1) t).map (c :: ·)
      else if c = '}' then
        (if depth ≤ 1 then some [c] else (closeAt (depth - 1) t).map (c :: ·))
      else (closeAt depth t).map (c :: ·)

/-- The first balanced `{...}` object of a text. -/
def balancedObject (s : Str) : Option Str :=
  match s.dropWhile (· ≠ '{') with
  | [] => none
  | c :: t => (closeAt 1 t).map (c :: ·)

/-- The span of the specification: the first balanced object beginning at or
after the first occurrence of the label. -/
def specSpan (jsonData label : Str) : Option Str :=
  (suffixAtLabel label jsonData).bind balancedObject

/-! ## Decimal numerals

What "in decimal" means, independently of `to_string`. -/

/-- The number that a sequence of digits denotes in base ten. -/
def decimalValue (ds : Str) : Nat :=
  ds.foldl (fun acc c => acc * 10 + (c.toNat - '0'.toNat)) 0

/-- The text `ds` is the decimal numeral of the natural number `m`: one or
more decimal digits, no leading zero except in the numeral `0`, denoting `m`. -/
def IsNumeralOf (ds : Str) (m : Nat) : Prop :=
  ds ≠ [] ∧ (∀ c ∈ ds, c.isDigit = true) ∧ (ds.head? = some '0' → ds = ['0'])
    ∧ decimalValue ds = m

/-- The text `d` is the decimal numeral of the integer `n`: the numeral of its
absolute value, after a minus sign exactly when `n` is negative. -/
def IsDecimalOf (d : Str) (n : Int) : Prop :=
  if n < 0 then ∃ ds, d = '-' :: ds ∧ IsNumeralOf ds n.natAbs else IsNumeralOf d n.toNat

/-! ## JSON syntax (RFC 8259) -/

/-- The whitespace characters of JSON. -/
def isWs (c : Char) : Bool := c = ' ' || c = '\t' || c = '\n' || c = '\r'

/-- The production `ws`. -/
def Ws (s : Str) : Prop := ∀ c ∈ s, isWs c = true

instance (s : Str) : Decidable (Ws s) := by
  unfold Ws
  infer_instance

/-- The hexadecimal digits. -/
def isHex (c : Char) : Bool :=
  c.isDigit || ('a' ≤ c && c ≤ 'f') || ('A' ≤ c && c ≤ 'F')

/-- One or more decimal digits. -/
def Digits (s : Str) : Prop := s ≠ [] ∧ ∀ c ∈ s, c.isDigit = true

/-- The production `int`: a zero, or a non-zero digit followed by digits. -/
def JInt (s : Str) : Prop :=
  s = ['0'] ∨ ∃ c ds, s = c :: ds ∧ c.isDigit = true ∧ c ≠ '0' ∧ ∀ d ∈ ds, d.isDigit = true

/-- The optional production `frac`. -/
def JFrac (s : Str) : Prop := s = [] ∨ ∃ ds, Digits ds ∧ s = '.' :: ds

/-- The optional production `exp`. -/
def JExp (s : Str) : Prop :=
  s = [] ∨ ∃ e sign ds, (e = 'e' ∨ e = 'E') ∧ (sign = [] ∨ sign = ['-'] ∨ sign = ['+']) ∧
    Digits ds ∧ s = e :: (sign ++ ds)

/-- The production `number`. -/
def JNumber (s : Str) : Prop :=
  ∃ sign i f e, (sign = [] ∨ sign = ['-']) ∧ JInt i ∧ JFrac f ∧ JExp e ∧ s = sign ++ i ++ f ++ e

/-- The characters between the quotes of a string. -/
inductive JChars : Str → Prop
  | nil : JChars []
  | plain (c : Char) (s : Str) : c ≠ '"' → c ≠ '\\' → 0x20 ≤ c.toNat → JChars s →
      JChars (c :: s)
  | escape (c : Char) (s : Str) : c ∈ ['"', '\\', '/', 'b', 'f', 'n', 'r', 't'] → JChars s →
      JChars ('\\' :: c :: s)
  | unicode (a b c d : Char) (s : Str) : isHex a = true → isHex b = true → isHex c = true →
      isHex d = true → JChars s → JChars ('\\' :: 'u' :: a :: b :: c :: d :: s)

/-- The production `string`. -/
def JString (s : Str) : Prop := ∃ body, JChars body ∧ s = ['"'] ++ body ++ ['"']

/-- The recursive productions of the grammar. -/
inductive Cat where
  | value | object | array | member | members | elements
  deriving DecidableEq, Repr

/-- The texts of each recursive production; the structural characters carry
their surrounding whitespace as in the RFC. -/
inductive Json : Cat → Str → Prop
  | litFalse : Json .value "false".toList
  | litNull : Json .value "null".toList
  | litTrue : Json .value "true".toList
  | ofObject {s : Str} : Json .object s → Json .value s
  | ofArray {s : Str} : Json .array s → Json .value s
  | number {s : Str} : JNumber s → Json .value s
  | string {s : Str} : JString s → Json .value s
  | objectEmpty {a b c : Str} : Ws a → Ws b → Ws c →
      Json .object (a ++ ['{'] ++ b ++ ['}'] ++ c)
  | objectOf {a b ms c d : Str} : Ws a → Ws b → Json .members ms → Ws c → Ws d →
      Json .object (a ++ ['{'] ++ b ++ ms ++ c ++ ['}'] ++ d)
  | arrayEmpty {a b c : Str} : Ws a → Ws b → Ws c →
      Json .array (a ++ ['['] ++ b ++ [']'] ++ c)
  | arrayOf {a b es c d : Str} : Ws a → Ws b → Json .elements es → Ws c → Ws d →
      Json .array (a ++ ['['] ++ b ++ es ++ c ++ [']'] ++ d)
  | member {k a b v : Str} : JString k → Ws a → Ws b → Json .value v →
      Json .member (k ++ a ++ [':'] ++ b ++ v)
  | membersOne {m : Str} : Json .member m → Json .members m
  | membersCons {m a b ms : Str} : Json .member m → Ws a → Ws b → Json .members ms →
      Json .members (m ++ a ++ [','] ++ b ++ ms)
  | elementsOne {v : Str} : Json .value v → Json .elements v
  | elementsCons {v a b es : Str} : Json .value v → Ws a → Ws b → Json .elements es →
      Json .elements (v ++ a ++ [','] ++ b ++ es)

/-- A JSON text: a value between optional whitespace. -/
def JsonText (s : Str) : Prop := ∃ a v b, Ws a ∧ Json .value v ∧ Ws b ∧ s = a ++ v ++ b

/-- A comma-joined list of object members, between optional whitespace. -/
def MemberList (s : Str) : Prop := ∃ a ms b, Ws a ∧ Json .members ms ∧ Ws b ∧ s = a ++ ms ++ b

/-- A comma-joined, non-empty list of JSON objects. -/
inductive ObjectList : Str → Prop
  | one {o : Str} : Json .object o → ObjectList o
  | cons {o rest : Str} : Json .object o → ObjectList rest → ObjectList (o ++ [','] ++ rest)

/-- An array text whose elements are all objects. -/
def ArrayOfObjects (s : Str) : Prop :=
  s = ['[', ']'] ∨ ∃ l, ObjectList l ∧ s = ['['] ++ l ++ [']']

/-- Where a scan stands with respect to string literals: outside, inside, or
right after a backslash inside. -/
inductive QState where
  | out | str | esc
  deriving DecidableEq, Repr

/-- One character of the scan. -/
def qstep : QState → Char → QState
  | .out, c => if c = '"' then .str else .out
  | .str, c => if c = '"' then .out else if c = '\\' then .esc else .str
  | .esc, _ => .str

/-- The state after scanning a text. -/
def qscan (q : QState) (s : Str) : QState := s.foldl qstep q

/-! ## Example texts -/

/-- The metadata span of the scenario: `{"redis-ver":"7.0"}`. -/
def scenarioMetadata : Str := "\x7b\"redis-ver\":\"7.0\"\x7d".toList

/-- The size-statistics span of the scenario: `{"keys":1}`. -/
def scenarioSizeStats : Str := "\x7b\"keys\":1\x7d".toList

/-- The entries span of the scenario: `"foo":"bar"`. -/
def scenarioEntries : Str := "\"foo\":\"bar\"".toList

/-- The document expected in the scenario:
`[{"__aux__":{"redis-ver":"7.0"}},{"__dbsize__":{"keys":1}},{"foo":"bar"},{"__types__":{"foo":0}}]`. -/
def scenarioDocument : Str :=
  ("[\x7b\"__aux__\":\x7b\"redis-ver\":\"7.0\"\x7d\x7d," ++
    "\x7b\"__dbsize__\":\x7b\"keys\":1\x7d\x7d," ++
    "\x7b\"foo\":\"bar\"\x7d,\x7b\"__types__\":\x7b\"foo\":0\x7d\x7d]").toList

/-- A flat document without any label: `{"foo":"bar"}`. -/
def plainDoc : Str := "\x7b\"foo\":\"bar\"\x7d".toList

/-- A flat document whose metadata object is never closed: `{"__aux__":{"a":1`. -/
def unclosedDoc : Str := "\x7b\"__aux__\":\x7b\"a\":1".toList

/-- The section extracted from `unclosedDoc`: `{"a":1`. -/
def unclosedSection : Str := "\x7b\"a\":1".toList

/-- The text assembled from `unclosedDoc`: `[{"__aux__":{"a":1},{"__types__":{}}]`. -/
def unclosedResult : Str := "[\x7b\"__aux__\":\x7b\"a\":1\x7d,\x7b\"__types__\":\x7b\x7d\x7d]".toList

/-- A flat document with no `{` after the size-statistics label: `{"__dbsize__":1}`. -/
def noBraceDoc : Str := "\x7b\"__dbsize__\":1\x7d".toList

/-- A flat document whose metadata object has a nested object:
`{"__aux__":{"a":{"b":1}},"__dbsize__":{"keys":1},"foo":"bar"}`. -/
def nestedDoc : Str :=
  ("\x7b\"__aux__\":\x7b\"a\":\x7b\"b\":1\x7d\x7d," ++
    "\"__dbsize__\":\x7b\"keys\":1\x7d,\"foo\":\"bar\"\x7d").toList

/-- The balanced metadata object of `nestedDoc`: `{"a":{"b":1}}`. -/
def nestedBalanced : Str := "\x7b\"a\":\x7b\"b\":1\x7d\x7d".toList

/-- The metadata section extracted from `nestedDoc`: `{"a":{"b":1}`. -/
def nestedCut : Str := "\x7b\"a\":\x7b\"b\":1\x7d".toList

/-- The text assembled from `nestedDoc`:
`[{"__aux__":{"a":{"b":1}},{"__dbsize__":{"keys":1}},{"foo":"bar"},{"__types__":{"foo":0}}]`. -/
def nestedResult : Str :=
  ("[\x7b\"__aux__\":\x7b\"a\":\x7b\"b\":1\x7d\x7d," ++
    "\x7b\"__dbsize__\":\x7b\"keys\":1\x7d\x7d," ++
    "\x7b\"foo\":\"bar\"\x7d,\x7b\"__types__\":\x7b\"foo\":0\x7d\x7d]").toList

/-- A flat document without entries, a line feed before the last brace:
`{"__dbsize__":{"keys":0}` line feed `}`. -/
def noKeysDoc : Str := "\x7b\"__dbsize__\":\x7b\"keys\":0\x7d\n\x7d".toList

/-- The text assembled from `noKeysDoc`:
`[{"__dbsize__":{"keys":0}},{` line feed `},{"__types__":{}}]`. -/
def noKeysResult : Str :=
  ("[\x7b\"__dbsize__\":\x7b\"keys\":0\x7d\x7d," ++
    "\x7b\n\x7d,\x7b\"__types__\":\x7b\x7d\x7d]").toList

/-- The size-statistics section of `noKeysDoc` and `twoCommasDoc`: `{"keys":0}`. -/
def noKeysStats : Str := "\x7b\"keys\":0\x7d".toList

/-- A flat document whose entries span is two commas: `{"__dbsize__":{"keys":0},,}`. -/
def twoCommasDoc : Str := "\x7b\"__dbsize__\":\x7b\"keys\":0\x7d,,\x7d".toList

/-- An entries span with two commas at each end: `,,"foo":"bar",,`. -/
def doubledSpan : Str := ",,\"foo\":\"bar\",,".toList

/-- The span `doubledSpan` after one clean-up: `,"foo":"bar",`. -/
def doubledOnce : Str := ",\"foo\":\"bar\",".toList

/-- The registry of the scenario: the single record (`foo`, 0). -/
def scenarioRegistry : List KeyTypeInfo := [⟨"foo".toList, 0⟩]

/-- A registry whose single key is one double quote, with type code 0. -/
def quoteRegistry : List KeyTypeInfo := [⟨['"'], 0⟩]

/-- A registry whose single key is one backslash, with type code 0. -/
def backslashRegistry : List KeyTypeInfo := [⟨['\\'], 0⟩]

/-- The serialisation of `quoteRegistry`: `{""":0}`. -/
def quoteTypes : Str := "\x7b\"\"\":0\x7d".toList

/-- The serialisation of `backslashRegistry`: `{"\":0}`. -/
def backslashTypes : Str := "\x7b\"\\\":0\x7d".toList

/-! ## Properties of the assembler -/

theorem intercalate_cons (sep x : Str) (l : List Str) :
    List.intercalate sep (x :: l) = x ++ (l.map (sep ++ ·)).flatten := by
  induction l generalizing x with
  | nil => simp [List.intercalate]
  | cons y l ih =>
    have h := ih y
    simp only [List.intercalate, List.intersperse_cons₂, List.flatten_cons, List.map_cons] at h ⊢
    rw [h, List.append_assoc]

theorem emitObjects_succ (objs : List Str) (i : Nat) (acc : Str) :
    emitObjects objs (i + 1) acc = acc ++ (objs.map ([','] ++ ·)).flatten := by
  induction objs generalizing i acc with
  | nil => simp [emitObjects]
  | cons o rest ih => simp [emitObjects, ih]

theorem emitObjects_zero (objs : List Str) (acc : Str) :
    emitObjects objs 0 acc = acc ++ List.intercalate [','] objs := by
  cases objs with
  | nil => simp [emitObjects, List.intercalate]
  | cons o rest => simp [emitObjects, emitObjects_succ, intercalate_cons]

theorem generateJson_eq_wrapped (m s e t : Str) :
    generateJson m s e t
      = ['['] ++ List.intercalate [',']
          (wrapped auxOpen m ++ wrapped dbSizeOpen s ++ wrapped ['{'] e ++ wrapped typesOpen t)
        ++ [']'] := by
  unfold generateJson wrapped
  simp only [emitObjects_zero]
  by_cases hm : m = [] <;> by_cases hs : s = [] <;> by_cases he : e = [] <;>
    by_cases ht : t = [] <;> simp [hm, hs, he, ht]

/-- C1: `generateJson` returns `[`, the comma-joined list of the wrapped
non-empty inputs in the order metadata, size statistics, entries, type
registry, and `]`; an empty input contributes nothing, and four empty inputs
give exactly `[]`. -/
theorem generateJson_spec (metadata sizeStats entries typeRegistryJSON : Str) :
    generateJson metadata sizeStats entries typeRegistryJSON
      = "[".toList ++ List.intercalate ",".toList
          ((if metadata = [] then [] else ["\x7b\"__aux__\":".toList ++ metadata ++ "\x7d".toList])
            ++ (if sizeStats = [] then [] else ["\x7b\"__dbsize__\":".toList ++ sizeStats ++ "\x7d".toList])
            ++ (if entries = [] then [] else ["\x7b".toList ++ entries ++ "\x7d".toList])
            ++ (if typeRegistryJSON = [] then []
                else ["\x7b\"__types__\":".toList ++ typeRegistryJSON ++ "\x7d".toList]))
        ++ "]".toList
    ∧ generateJson [] [] [] [] = "[]".toList := by
  refine ⟨?_, by decide⟩
  rw [generateJson_eq_wrapped]
  rfl

/-! ## Properties of the key-type serialisation -/

theorem foldl_typeStep_false (l : List KeyTypeInfo) (acc : Str) :
    l.foldl typeStep (acc, false) = (acc ++ (l.map (fun r => [','] ++ typeEntry r)).flatten, false) := by
  induction l generalizing acc with
  | nil => simp
  | cons r l ih => simp [typeStep, ih, typeEntry]

theorem typeJsonOf_eq (l : List KeyTypeInfo) :
    typeJsonOf l = ['{'] ++ List.intercalate [','] (l.map typeEntry) ++ ['}'] := by
  cases l with
  | nil => simp [typeJsonOf, List.intercalate]
  | cons r l =>
    simp only [typeJsonOf, List.foldl_cons, List.map_cons, intercalate_cons]
    have h : typeStep (['{'], true) r = (['{'] ++ typeEntry r, false) := by
      simp [typeStep, typeEntry]
    rw [h, foldl_typeStep_false]
    simp [List.map_map, Function.comp_def]

theorem foldl_handleNewKey (reported : List (Str × Int)) (types : List KeyTypeInfo) :
    reported.foldl (fun types r => handleNewKey types r.1 r.2) types
      = types ++ reported.map fun r => ⟨cString r.1, r.2⟩ := by
  induction reported generalizing types with
  | nil => simp
  | cons r l ih =>
    simp only [List.foldl_cons, List.map_cons]
    rw [ih]
    simp [handleNewKey]

theorem recordAll_eq (reported : List (Str × Int)) :
    recordAll reported = reported.map fun r => ⟨cString r.1, r.2⟩ := by
  simp [recordAll, foldl_handleNewKey]

theorem digitChar_facts {k : Nat} (h : k < 10) :
    (Nat.digitChar k).isDigit = true ∧ (Nat.digitChar k).toNat - '0'.toNat = k
      ∧ (Nat.digitChar k = '0' → k = 0) := by
  interval_cases k <;> decide

theorem decimalValue_concat (ds : Str) (c : Char) :
    decimalValue (ds ++ [c]) = decimalValue ds * 10 + (c.toNat - '0'.toNat) := by
  simp [decimalValue, List.foldl_append]

theorem toDigitsCore_numeral (fuel : Nat) :
    ∀ (n : Nat) (ds : Str), n < fuel →
      ∃ l, Nat.toDigitsCore 10 fuel n ds = l ++ ds ∧ IsNumeralOf l n := by
  induction fuel with
  | zero => intro n ds h; omega
  | succ fuel ih =>
    intro n ds h
    obtain ⟨hd1, hd2, hd3⟩ := digitChar_facts (Nat.mod_lt n (by decide : 10 > 0))
    by_cases h0 : n / 10 = 0
    · refine ⟨[Nat.digitChar (n % 10)], by simp [Nat.toDigitsCore, h0], by simp, ?_, ?_, ?_⟩
      · intro c hc
        rw [List.mem_singleton.mp hc]
        exact hd1
      · intro hh
        simp only [List.head?_cons, Option.some.injEq] at hh
        rw [hh]
      · simp only [decimalValue, List.foldl_cons, List.foldl_nil, Nat.zero_mul, Nat.zero_add]
        rw [hd2]
        omega
    · obtain ⟨l, hl, hne, hdig, hlead, hval⟩ :=
        ih (n / 10) (Nat.digitChar (n % 10) :: ds) (by omega)
      refine ⟨l ++ [Nat.digitChar (n % 10)], ?_, by simp, ?_, ?_, ?_⟩
      · simp only [Nat.toDigitsCore, h0, ↓reduceIte, hl, List.append_assoc, List.singleton_append]
      · intro c hc
        rcases List.mem_append.mp hc with hc | hc
        · exact hdig c hc
        · rw [List.mem_singleton.mp hc]
          exact hd1
      · intro hh
        cases l with
        | nil => exact absurd rfl hne
        | cons x l =>
          simp only [List.cons_append, List.head?_cons, Option.some.injEq] at hh
          have hx := hlead (by simp [hh])
          rw [hx] at hval
          exact absurd hval.symm (by simpa [decimalValue] using h0)
      · rw [decimalValue_concat, hval, hd2]
        omega

theorem toDigits_numeral (n : Nat) : IsNumeralOf (Nat.toDigits 10 n) n := by
  obtain ⟨l, hl, h⟩ := toDigitsCore_numeral (n + 1) n [] (by omega)
  rw [List.append_nil] at hl
  rw [Nat.toDigits, hl]
  exact h

theorem to_string_decimal (n : Int) : IsDecimalOf (to_string n) n := by
  unfold IsDecimalOf to_string
  by_cases h : n < 0
  · simp only [h, ↓reduceIte]
    exact ⟨_, rfl, toDigits_numeral _⟩
  · simp only [h, ↓reduceIte]
    exact toDigits_numeral _

/-- C5: the serialisation of a registry is `{`, the comma-joined entries
`"key":typeCode`, one per record in recording order, and `}`, where the type
code is written as its decimal numeral (digits denoting its absolute value in
base ten, no superfluous leading zero, a minus sign exactly when negative); the
registry without records serialises to exactly `{}`.  The registry that the
callback builds holds one record per reported key, in the order of the
reports, each key read up to its first NUL. -/
theorem typeJsonOf_spec (registry : List KeyTypeInfo) (reported : List (Str × Int)) :
    typeJsonOf registry
      = "\x7b".toList ++ List.intercalate ",".toList
          (registry.map fun r => "\"".toList ++ r.key ++ "\":".toList ++ to_string r.dataType)
        ++ "\x7d".toList
    ∧ (∀ typeCode : Int, IsDecimalOf (to_string typeCode) typeCode)
    ∧ typeJsonOf (recordAll reported)
      = "\x7b".toList ++ List.intercalate ",".toList
          (reported.map fun r =>
            "\"".toList ++ r.1.takeWhile (· ≠ Char.ofNat 0) ++ "\":".toList ++ to_string r.2)
        ++ "\x7d".toList
    ∧ typeJsonOf [] = "\x7b\x7d".toList := by
  refine ⟨?_, to_string_decimal, ?_, by decide⟩
  · rw [typeJsonOf_eq]
    rfl
  · rw [typeJsonOf_eq, recordAll_eq, List.map_map]
    rfl

/-- C2: the scenario of the specification: the registry holding the single
record (`foo`, 0) is serialised and assembled with the three given spans into
exactly the expected text. -/
theorem scenario_foo_bar :
    generateJson scenarioMetadata scenarioSizeStats scenarioEntries (typeJsonOf scenarioRegistry)
      = scenarioDocument := by
  decide

/-! ## Properties of the searches -/

theorem sizeRange_eq : sizeRange = 18446744073709551616 := by decide

theorem npos_eq : npos = 18446744073709551615 := by decide

theorem findFrom_of_absent {pat t : Str} (i : Nat) (h : ¬ pat <:+: t) :
    findFrom pat t i = npos := by
  induction t generalizing i with
  | nil =>
    have hp : pat ≠ [] := by
      rintro rfl
      exact h List.nil_infix
    simp [findFrom, hp]
  | cons c t ih =>
    have h1 : pat.isPrefixOf (c :: t) = false := by
      cases hb : pat.isPrefixOf (c :: t) with
      | false => rfl
      | true => exact absurd (List.isPrefixOf_iff_prefix.mp hb).isInfix h
    have h2 : ¬ pat <:+: t := fun hh => h (hh.trans (List.suffix_cons c t).isInfix)
    simp [findFrom, h1, ih _ h2]

theorem find_of_absent {pat s : Str} (h : ¬ pat <:+: s) : find s pat 0 = npos := by
  simp [find, findFrom_of_absent 0 h]

theorem findFrom_suffixAt {label t suf : Str} (i : Nat) (h : suffixAtLabel label t = some suf) :
    findFrom label t i = i + (t.length - suf.length)
      ∧ t.drop (t.length - suf.length) = suf ∧ suf.length ≤ t.length := by
  induction t generalizing i with
  | nil =>
    by_cases hp : label = []
    · simp [suffixAtLabel, hp] at h
      subst h
      simp [findFrom, hp]
    · simp [suffixAtLabel, hp] at h
  | cons c t ih =>
    by_cases hb : label.isPrefixOf (c :: t) = true
    · simp [suffixAtLabel, hb] at h
      subst h
      simp [findFrom, hb]
    · simp only [suffixAtLabel, hb] at h
      obtain ⟨h1, h2, h3⟩ := ih (i + 1) h
      have h4 : (c :: t).length - suf.length = (t.length - suf.length) + 1 := by
        simp only [List.length_cons]; omega
      refine ⟨?_, ?_, ?_⟩
      · simp only [findFrom, hb]
        rw [h4]
        simp only [Bool.false_eq_true, ↓reduceIte, h1]
        omega
      · rw [h4]; simpa using h2
      · simp only [List.length_cons]; omega

theorem findFrom_char_not_mem {c : Char} {t : Str} (i : Nat) (h : c ∉ t) :
    findFrom [c] t i = npos := by
  induction t generalizing i with
  | nil => simp [findFrom]
  | cons x t ih =>
    simp only [List.mem_cons, not_or] at h
    simp [findFrom, h.1, ih _ h.2]

theorem findFrom_char {c : Char} {m : Str} (b : Str) (i : Nat) (h : c ∉ m) :
    findFrom [c] (m ++ c :: b) i = i + m.length := by
  induction m generalizing i with
  | nil => simp [findFrom]
  | cons x m ih =>
    simp only [List.mem_cons, not_or] at h
    simp only [List.cons_append, findFrom, List.isPrefixOf, List.length_cons]
    simp [h.1, ih _ h.2]
    omega

theorem rfindFrom_char_not_mem {c : Char} {t : Str} (i best : Nat) (h : c ∉ t) :
    rfindFrom [c] t i best = best := by
  induction t generalizing i with
  | nil => simp [rfindFrom]
  | cons x t ih =>
    simp only [List.mem_cons, not_or] at h
    simp [rfindFrom, h.1, ih _ h.2]

theorem rfindFrom_char {c : Char} (a : Str) {b : Str} (i best : Nat) (h : c ∉ b) :
    rfindFrom [c] (a ++ c :: b) i best = i + a.length := by
  induction a generalizing i best with
  | nil => simp [rfindFrom, rfindFrom_char_not_mem _ _ h]
  | cons x a ih =>
    show rfindFrom [c] (a ++ c :: b) (i + 1) _ = _
    rw [ih]
    simp only [List.length_cons]
    omega

/-! ## Properties of the section extraction -/

theorem extractObject_of_absent {jsonData label : Str} (h : ¬ label <:+: jsonData) :
    extractObject jsonData label = .ok [] := by
  simp [extractObject, find_of_absent h]

theorem extractEntries_of_absent {jsonData : Str} (h : ¬ dbSizeLabel <:+: jsonData) :
    extractEntries jsonData = .ok [] := by
  simp [extractEntries, find_of_absent h]

theorem extractObject_ok_or_range (jsonData label : Str) :
    (∃ x, extractObject jsonData label = .ok x)
      ∨ extractObject jsonData label = .error .out_of_range := by
  unfold extractObject substr
  simp only []
  split
  · split
    · exact Or.inr rfl
    · exact Or.inl ⟨_, rfl⟩
  · exact Or.inl ⟨_, rfl⟩

theorem find_label_of_suffixAt {jsonData label suf : Str}
    (h : suffixAtLabel label jsonData = some suf) :
    find jsonData label 0 = jsonData.length - suf.length
      ∧ jsonData.drop (jsonData.length - suf.length) = suf := by
  obtain ⟨h1, h2, _⟩ := findFrom_suffixAt 0 h
  refine ⟨?_, h2⟩
  simp [find, h1]

theorem find_at_le {s pat : Str} {pos : Nat} (h : pos ≤ s.length) :
    find s pat pos = findFrom pat (s.drop pos) pos := by
  simp [find, Nat.not_lt.mpr h]

theorem extractObject_no_open {jsonData label suf : Str} (hlen : jsonData.length < npos)
    (h : suffixAtLabel label jsonData = some suf) (hb : '{' ∉ suf) :
    extractObject jsonData label = .error .out_of_range := by
  obtain ⟨h1, h2⟩ := find_label_of_suffixAt h
  have hp : jsonData.length - suf.length ≤ jsonData.length := Nat.sub_le _ _
  have hne : jsonData.length - suf.length ≠ npos := by omega
  have h3 : find jsonData ['{'] (jsonData.length - suf.length) = npos := by
    rw [find_at_le hp, h2, findFrom_char_not_mem _ hb]
  have h4 : find jsonData ['}'] npos = npos := by
    simp [find, hlen]
  simp only [extractObject, h1, hne, ne_eq, not_false_eq_true, ↓reduceIte, h3, h4, substr, hlen]

/-- C9: a section whose label does not occur in the document is extracted as
the empty string, with no fault (metadata, size statistics); and when the
size-statistics label is absent the entries section is empty as well, whatever
else the document contains. -/
theorem absent_label_gives_empty_section (jsonData : Str) :
    (¬ auxLabel <:+: jsonData → extractObject jsonData auxLabel = .ok [])
    ∧ (¬ dbSizeLabel <:+: jsonData →
        extractObject jsonData dbSizeLabel = .ok [] ∧ extractEntries jsonData = .ok []
        ∧ extractSections jsonData
            = (extractObject jsonData auxLabel).map fun auxInfo => (auxInfo, [], []))
    ∧ (¬ auxLabel <:+: jsonData → ¬ dbSizeLabel <:+: jsonData →
        extractSections jsonData = .ok ([], [], [])) := by
  refine ⟨extractObject_of_absent, fun h => ⟨extractObject_of_absent h,
    extractEntries_of_absent h, ?_⟩, fun ha hd => ?_⟩
  · simp only [extractSections, extractObject_of_absent h, extractEntries_of_absent h]
    cases extractObject jsonData auxLabel <;> rfl
  · simp only [extractSections, extractObject_of_absent ha, extractObject_of_absent hd,
      extractEntries_of_absent hd]
    rfl

theorem absent_label_gives_empty_section_witness :
    ¬ auxLabel <:+: plainDoc ∧ ¬ dbSizeLabel <:+: plainDoc
    ∧ extractSections plainDoc = .ok ([], [], []) :=
  ⟨by decide, by decide,
    (absent_label_gives_empty_section plainDoc).2.2 (by decide) (by decide)⟩

/-- C4, counterexample: the metadata label is followed by a `{` that is never
closed, yet no fault is raised: a partial section is extracted and a document
is assembled from it. -/
theorem unclosed_object_not_reported :
    auxLabel <:+: unclosedDoc
    ∧ specSpan unclosedDoc auxLabel = none
    ∧ extractObject unclosedDoc auxLabel = .ok unclosedSection
    ∧ ParseRDB unclosedDoc [] = .ok unclosedResult := by
  decide

/-- C4, amended: when the metadata label or the size-statistics label occurs
in a document and no `{` occurs at or after its first occurrence, extraction
ends with the `out_of_range` fault and no document is assembled. -/
theorem label_without_open_brace_faults (jsonData suf : Str) (keyTypes : List KeyTypeInfo)
    (hlen : jsonData.length < npos)
    (h : suffixAtLabel auxLabel jsonData = some suf
      ∨ suffixAtLabel dbSizeLabel jsonData = some suf)
    (hb : '{' ∉ suf) :
    extractSections jsonData = .error .out_of_range
    ∧ ParseRDB jsonData keyTypes = .error .out_of_range := by
  have hs : extractSections jsonData = .error .out_of_range := by
    rcases h with h | h
    · simp only [extractSections, extractObject_no_open hlen h hb]
      rfl
    · rcases extractObject_ok_or_range jsonData auxLabel with ⟨x, hx⟩ | hx
      · simp only [extractSections, hx, extractObject_no_open hlen h hb]
        rfl
      · simp only [extractSections, hx]
        rfl
  refine ⟨hs, ?_⟩
  simp only [ParseRDB, hs]
  rfl

theorem label_without_open_brace_faults_witness :
    ParseRDB noBraceDoc scenarioRegistry = .error .out_of_range :=
  (label_without_open_brace_faults noBraceDoc (noBraceDoc.drop 1) scenarioRegistry (by decide)
    (Or.inr (by decide)) (by decide)).2

theorem sizeAdd_one {n : Nat} (h : n < npos) : sizeAdd n 1 = n + 1 := by
  rw [npos_eq] at h
  simp only [sizeAdd, sizeRange_eq]
  omega

theorem sizeSub_of_le {a b : Nat} (hab : b ≤ a) (ha : a < sizeRange) : sizeSub a b = a - b := by
  rw [sizeRange_eq] at ha
  simp only [sizeSub, sizeRange_eq]
  omega

theorem dropWhile_to_open {m : Str} (rest : Str) (hm : '{' ∉ m) :
    (m ++ '{' :: rest).dropWhile (· ≠ '{') = '{' :: rest := by
  induction m with
  | nil => simp
  | cons x m ih =>
    simp only [List.mem_cons, not_or] at hm
    have hx : x ≠ '{' := fun h => hm.1 h.symm
    simpa [List.dropWhile, hx] using ih hm.2

theorem closeAt_flat {body : Str} (post : Str) (h1 : '{' ∉ body) (h2 : '}' ∉ body) :
    closeAt 1 (body ++ '}' :: post) = some (body ++ ['}']) := by
  induction body with
  | nil => simp [closeAt]
  | cons x body ih =>
    simp only [List.mem_cons, not_or] at h1 h2
    have hx1 : x ≠ '{' := fun h => h1.1 h.symm
    have hx2 : x ≠ '}' := fun h => h2.1 h.symm
    simp [closeAt, hx1, hx2, ih h1.2 h2.2]

theorem extractObject_first_close {jsonData label suf m body post : Str}
    (hlen : jsonData.length < npos)
    (hsuf : suffixAtLabel label jsonData = some suf)
    (hshape : suf = m ++ ['{'] ++ body ++ ['}'] ++ post)
    (hm : '{' ∉ m) (hbody : '}' ∉ body) :
    extractObject jsonData label = .ok (['{'] ++ body ++ ['}']) := by
  obtain ⟨h1, h2⟩ := find_label_of_suffixAt hsuf
  have hsl : suf.length ≤ jsonData.length := (findFrom_suffixAt 0 hsuf).2.2
  have hsuflen : suf.length = m.length + body.length + post.length + 2 := by
    rw [hshape]; simp only [List.length_append, List.length_cons, List.length_nil]; omega
  rw [npos_eq] at hlen
  set p := jsonData.length - suf.length with hp
  have hne : p ≠ npos := by rw [npos_eq]; omega
  have h3 : find jsonData ['{'] p = p + m.length := by
    rw [find_at_le (by omega), h2, hshape]
    simp only [List.append_assoc, List.singleton_append]
    exact findFrom_char _ _ hm
  have hdrop : jsonData.drop (p + m.length) = '{' :: (body ++ '}' :: post) := by
    rw [← List.drop_drop, h2, hshape]
    simp
  have h4 : find jsonData ['}'] (p + m.length) = p + m.length + 1 + body.length := by
    rw [find_at_le (by omega), hdrop]
    simp only [findFrom]
    simp only [List.isPrefixOf, show ('}' == '{') = false by decide, Bool.false_and,
      Bool.false_eq_true, ↓reduceIte]
    exact findFrom_char _ _ hbody
  have h5 : sizeAdd (p + m.length + 1 + body.length) 1 = p + m.length + body.length + 2 := by
    rw [sizeAdd_one (by rw [npos_eq]; omega)]
    omega
  have h6 : sizeSub (p + m.length + body.length + 2) (p + m.length) = body.length + 2 := by
    rw [sizeSub_of_le (by omega) (by rw [sizeRange_eq]; omega)]
    omega
  have h7 : ¬ (p + m.length > jsonData.length) := by omega
  simp only [extractObject, h1, hne, ne_eq, not_false_eq_true, ↓reduceIte, h3, h4, h5, h6,
    substr, h7, hdrop]
  congr 1
  rw [show body.length + 2 = (body.length + 1) + 1 by omega, List.take_succ_cons,
    show body ++ '}' :: post = (body ++ ['}']) ++ post by simp]
  simp only [List.singleton_append, List.cons_append, List.cons.injEq, true_and]
  exact List.take_left' (by simp)

/-- C6, counterexample: the metadata object contains a nested object; the
span of the specification runs to the matching closing brace, the extracted
section stops at the first `}`. -/
theorem nested_object_cut_at_first_close :
    specSpan nestedDoc auxLabel = some nestedBalanced
    ∧ extractObject nestedDoc auxLabel = .ok nestedCut
    ∧ nestedCut ≠ nestedBalanced
    ∧ ParseRDB nestedDoc scenarioRegistry = .ok nestedResult := by
  decide

/-- C6, amended: when a label (the metadata label, and in the same way the
size-statistics label) occurs in a document and a `{` follows its first
occurrence, the extracted section runs from the first such `{` through the
first `}` after it, without brace-depth counting; it is the first balanced
object of the specification when the object contains no nested `{`. -/
theorem section_runs_to_first_close (jsonData label suf m body post : Str)
    (hlen : jsonData.length < npos)
    (hsuf : suffixAtLabel label jsonData = some suf)
    (hshape : suf = m ++ ['{'] ++ body ++ ['}'] ++ post)
    (hm : '{' ∉ m) (hbody : '}' ∉ body) :
    extractObject jsonData label = .ok (['{'] ++ body ++ ['}'])
    ∧ ('{' ∉ body → specSpan jsonData label = some (['{'] ++ body ++ ['}'])) := by
  refine ⟨extractObject_first_close hlen hsuf hshape hm hbody, fun hb => ?_⟩
  simp only [specSpan, hsuf, Option.some_bind, balancedObject, hshape, List.append_assoc,
    List.singleton_append, List.cons_append, List.nil_append, dropWhile_to_open _ hm]
  rw [closeAt_flat _ hb hbody]
  rfl

theorem section_runs_to_first_close_witness :
    extractObject nestedDoc auxLabel = .ok nestedCut :=
  (section_runs_to_first_close nestedDoc auxLabel (nestedDoc.drop 1) auxLabel
    (nestedCut.drop 1).dropLast (nestedDoc.drop 23) (by decide) (by decide) (by decide) (by decide)
    (by decide)).1

/-! ## Properties of the separator clean-up -/

theorem front_cons (c : Char) (s : Str) : front (c :: s) = .ok c := rfl

theorem back_concat (s : Str) (c : Char) : back (s ++ [c]) = .ok c := by
  simp [back]

theorem back_of_getLast {s : Str} {c : Char} (h : s.getLast? = some c) : back s = .ok c := by
  simp [back, h]

theorem stripCommas_both (mid : Str) (hlen : mid.length + 2 < sizeRange) :
    stripCommas ([','] ++ mid ++ [',']) = .ok mid := by
  rw [sizeRange_eq] at hlen
  have h1 : substr (',' :: (mid ++ [','])) 1 npos = .ok (mid ++ [',']) := by
    simp only [substr, List.length_cons, List.length_append, List.length_nil, List.drop_succ_cons,
      List.drop_zero]
    rw [if_neg (by omega), List.take_of_length_le]
    rw [npos_eq]; simp only [List.length_append, List.length_cons, List.length_nil]; omega
  have h2 : sizeSub (mid ++ [',']).length 1 = mid.length := by
    rw [sizeSub_of_le (by simp) (by rw [sizeRange_eq]; simp; omega)]
    simp
  have h3 : substr (mid ++ [',']) 0 mid.length = .ok mid := by
    simp [substr]
  simp only [stripCommas, List.singleton_append, List.cons_append, front_cons]
  show (do
    let kv ← substr (',' :: (mid ++ [','])) 1 npos
    let c ← back kv
    if c = ',' then substr kv 0 (sizeSub kv.length 1) else pure kv) = _
  rw [h1]
  show (do
    let c ← back (mid ++ [','])
    if c = ',' then substr (mid ++ [',']) 0 (sizeSub (mid ++ [',']).length 1)
    else pure (mid ++ [','])) = _
  rw [back_concat, h2]
  exact h3

theorem stripCommas_none {s : Str} {a b : Char} (ha : s.head? = some a) (hb : s.getLast? = some b)
    (hna : a ≠ ',') (hnb : b ≠ ',') : stripCommas s = .ok s := by
  cases s with
  | nil => simp at ha
  | cons x t =>
    simp only [List.head?_cons, Option.some.injEq] at ha
    subst ha
    simp only [stripCommas, front_cons]
    show (do
      let kv ← if x = ',' then substr (x :: t) 1 npos else pure (x :: t)
      let c ← back kv
      if c = ',' then substr kv 0 (sizeSub kv.length 1) else pure kv) = _
    rw [if_neg hna]
    show (do
      let c ← back (x :: t)
      if c = ',' then substr (x :: t) 0 (sizeSub (x :: t).length 1) else pure (x :: t)) = _
    rw [back_of_getLast hb]
    show (if b = ',' then _ else _) = _
    rw [if_neg hnb]
    rfl

/-- C8, counterexample: a span with two commas at each end still begins and
ends with a comma after the clean-up, and a second clean-up changes it. -/
theorem doubled_commas_survive_one_strip :
    doubledSpan.head? = some ',' ∧ doubledSpan.getLast? = some ','
    ∧ stripCommas doubledSpan = .ok doubledOnce
    ∧ doubledOnce.head? = some ',' ∧ doubledOnce.getLast? = some ','
    ∧ stripCommas doubledOnce = .ok scenarioEntries
    ∧ scenarioEntries ≠ doubledOnce := by
  decide

/-- C8, amended: the clean-up of a span that begins with a comma and ends with
another comma removes exactly one comma at each end; when what remains is not
empty and neither begins nor ends with a comma, it has no leading and no
trailing comma and a second clean-up returns it unchanged. -/
theorem stripCommas_once_then_stable (mid : Str) (hlen : mid.length + 2 < sizeRange) :
    stripCommas ([','] ++ mid ++ [',']) = .ok mid
    ∧ (mid ≠ [] → mid.head? ≠ some ',' → mid.getLast? ≠ some ',' → stripCommas mid = .ok mid) := by
  refine ⟨stripCommas_both mid hlen, fun hne hh hl => ?_⟩
  cases hh' : mid.head? with
  | none => simp [List.head?_eq_none_iff] at hh'; exact absurd hh' hne
  | some a =>
    cases hl' : mid.getLast? with
    | none => simp [List.getLast?_eq_none_iff] at hl'; exact absurd hl' hne
    | some b =>
      refine stripCommas_none hh' hl' ?_ ?_
      · rintro rfl; exact hh hh'
      · rintro rfl; exact hl hl'

theorem stripCommas_once_then_stable_witness :
    stripCommas ([','] ++ scenarioEntries ++ [',']) = .ok scenarioEntries
    ∧ stripCommas scenarioEntries = .ok scenarioEntries :=
  ⟨(stripCommas_once_then_stable scenarioEntries (by decide)).1,
    (stripCommas_once_then_stable scenarioEntries (by decide)).2
      (by decide) (by decide) (by decide)⟩

/-! ## Properties of the entries section -/

theorem rfind_char {c : Char} (a : Str) {b : Str} (h : c ∉ b) :
    rfind (a ++ c :: b) [c] = a.length := by
  simp [rfind, rfindFrom_char a 0 npos h]

theorem extractEntries_shape {jsonData suf m raw post : Str}
    (hlen : jsonData.length < npos)
    (hsuf : suffixAtLabel dbSizeLabel jsonData = some suf)
    (hshape : suf = m ++ ['}'] ++ raw ++ ['}'] ++ post)
    (hm : '}' ∉ m) (hpost : '}' ∉ post) :
    extractEntries jsonData = stripCommas raw := by
  obtain ⟨h1, h2⟩ := find_label_of_suffixAt hsuf
  have hsl : suf.length ≤ jsonData.length := (findFrom_suffixAt 0 hsuf).2.2
  have hsuflen : suf.length = m.length + raw.length + post.length + 2 := by
    rw [hshape]; simp only [List.length_append, List.length_cons, List.length_nil]; omega
  rw [npos_eq] at hlen
  set p := jsonData.length - suf.length with hp
  have hne : p ≠ npos := by rw [npos_eq]; omega
  have h3 : find jsonData ['}'] p = p + m.length := by
    rw [find_at_le (by omega), h2, hshape]
    simp only [List.append_assoc, List.singleton_append]
    exact findFrom_char _ _ hm
  have hdoc : jsonData = (jsonData.take p ++ m ++ '}' :: raw) ++ '}' :: post := by
    conv_lhs => rw [← List.take_append_drop p jsonData, h2, hshape]
    simp
  have htake : (jsonData.take p).length = p := by
    rw [List.length_take]; omega
  have h4 : rfind jsonData ['}'] = p + m.length + 1 + raw.length := by
    rw [hdoc, rfind_char _ hpost]
    simp only [List.length_append, List.length_cons, htake]
    omega
  have h5 : sizeAdd (p + m.length) 1 = p + m.length + 1 := by
    rw [sizeAdd_one (by rw [npos_eq]; omega)]
  have h6 : sizeSub (p + m.length + 1 + raw.length) (p + m.length + 1) = raw.length := by
    rw [sizeSub_of_le (by omega) (by rw [sizeRange_eq]; omega)]
    omega
  have hdrop : jsonData.drop (p + m.length + 1) = raw ++ '}' :: post := by
    rw [show p + m.length + 1 = p + (m.length + 1) by omega, ← List.drop_drop, h2, hshape]
    rw [show m ++ ['}'] ++ raw ++ ['}'] ++ post = (m ++ ['}']) ++ (raw ++ '}' :: post) by simp]
    exact List.drop_left' (by simp)
  have h7 : substr jsonData (p + m.length + 1) raw.length = .ok raw := by
    simp only [substr, hdrop]
    rw [if_neg (by omega)]
    congr 1
    exact List.take_left' rfl
  simp only [extractEntries, h1, hne, ne_eq, not_false_eq_true, ↓reduceIte, h3, h4, h5, h6]
  show (do
    let kv ← substr jsonData (p + m.length + 1) raw.length
    stripCommas kv) = _
  rw [h7]
  rfl

theorem stripCommas_of_ws {raw : Str} (hws : Ws raw) (hne : raw ≠ []) :
    stripCommas raw = .ok raw := by
  cases hh : raw.head? with
  | none => simp [List.head?_eq_none_iff] at hh; exact absurd hh hne
  | some a =>
    cases hl : raw.getLast? with
    | none => simp [List.getLast?_eq_none_iff] at hl; exact absurd hl hne
    | some b =>
      have ha : isWs a = true := hws a (List.mem_of_mem_head? hh)
      have hb : isWs b = true := hws b (List.mem_of_mem_getLast? hl)
      refine stripCommas_none hh hl ?_ ?_
      · rintro rfl; exact absurd ha (by decide)
      · rintro rfl; exact absurd hb (by decide)

theorem ParseRDB_of_sections {jsonData a d k : Str} (keyTypes : List KeyTypeInfo)
    (ha : extractObject jsonData auxLabel = .ok a)
    (hd : extractObject jsonData dbSizeLabel = .ok d)
    (hk : extractEntries jsonData = .ok k) :
    ParseRDB jsonData keyTypes = .ok (generateJson a d k (typeJsonOf keyTypes)) := by
  simp only [ParseRDB, extractSections, ha, hd, hk]
  rfl

theorem typeJsonOf_ne_nil (keyTypes : List KeyTypeInfo) : typeJsonOf keyTypes ≠ [] := by
  simp [typeJsonOf]

/-- C7, counterexample: the entries span of this document is a single line
feed; the extracted section is that line feed, not the empty string, and the
assembled document has the element `{` line feed `}`. -/
theorem whitespace_entries_kept :
    extractEntries noKeysDoc = .ok ['\n']
    ∧ isWs '\n' = true
    ∧ ParseRDB noKeysDoc [] = .ok noKeysResult := by
  decide

/-- C7, amended: take a document in which the size-statistics label occurs,
whose metadata and size-statistics sections are extracted without fault, and
whose entries span `raw` lies between the first `}` after the label and the
last `}` of the document.  When the clean-up of lines 179-180 turns `raw` into
the empty string, as it does for the span of exactly two commas, the entries
section is the empty string and the assembled document has no entries object.
The empty span and the span of a single comma are left out of this part: there
lines 179-180 call `front()` or `back()` on an empty string, and nothing is
stated about what they return.  Whatever produces it, an empty entries section
is omitted by the assembler.  A whitespace-only, non-empty `raw` is not
normalised: it is the entries section as it stands, and the assembled document
has the element `{` + `raw` + `}`. -/
theorem entries_empty_omitted_whitespace_kept (jsonData suf m raw post auxInfo dbSizeInfo : Str)
    (keyTypes : List KeyTypeInfo)
    (hlen : jsonData.length < npos)
    (hsuf : suffixAtLabel dbSizeLabel jsonData = some suf)
    (hshape : suf = m ++ ['}'] ++ raw ++ ['}'] ++ post)
    (hm : '}' ∉ m) (hpost : '}' ∉ post)
    (ha : extractObject jsonData auxLabel = .ok auxInfo)
    (hd : extractObject jsonData dbSizeLabel = .ok dbSizeInfo) :
    (stripCommas raw = .ok [] →
      extractEntries jsonData = .ok []
      ∧ ParseRDB jsonData keyTypes
          = .ok (['['] ++ List.intercalate [',']
              (wrapped auxOpen auxInfo ++ wrapped dbSizeOpen dbSizeInfo
                ++ [typesOpen ++ typeJsonOf keyTypes ++ ['}']]) ++ [']']))
    ∧ (raw = [',', ','] → stripCommas raw = .ok [])
    ∧ generateJson auxInfo dbSizeInfo [] (typeJsonOf keyTypes)
        = ['['] ++ List.intercalate [',']
            (wrapped auxOpen auxInfo ++ wrapped dbSizeOpen dbSizeInfo
              ++ [typesOpen ++ typeJsonOf keyTypes ++ ['}']]) ++ [']']
    ∧ (Ws raw → raw ≠ [] →
      extractEntries jsonData = .ok raw
      ∧ ParseRDB jsonData keyTypes
          = .ok (['['] ++ List.intercalate [',']
              (wrapped auxOpen auxInfo ++ wrapped dbSizeOpen dbSizeInfo
                ++ [['{'] ++ raw ++ ['}'], typesOpen ++ typeJsonOf keyTypes ++ ['}']])
              ++ [']'])) := by
  have hE := extractEntries_shape hlen hsuf hshape hm hpost
  refine ⟨?_, ?_, ?_, ?_⟩
  · intro hs
    rw [hs] at hE
    refine ⟨hE, ?_⟩
    rw [ParseRDB_of_sections keyTypes ha hd hE, generateJson_eq_wrapped]
    simp [wrapped, typeJsonOf_ne_nil]
  · rintro rfl
    decide
  · rw [generateJson_eq_wrapped]
    simp [wrapped, typeJsonOf_ne_nil]
  · intro hws hne
    rw [stripCommas_of_ws hws hne] at hE
    refine ⟨hE, ?_⟩
    rw [ParseRDB_of_sections keyTypes ha hd hE, generateJson_eq_wrapped]
    simp [wrapped, typeJsonOf_ne_nil, hne]

theorem entries_empty_omitted_whitespace_kept_witness :
    (extractEntries twoCommasDoc = .ok []
      ∧ ParseRDB twoCommasDoc []
          = .ok (['['] ++ List.intercalate [',']
              (wrapped auxOpen [] ++ wrapped dbSizeOpen noKeysStats
                ++ [typesOpen ++ typeJsonOf [] ++ ['}']]) ++ [']']))
    ∧ (extractEntries noKeysDoc = .ok ['\n']
      ∧ ParseRDB noKeysDoc []
          = .ok (['['] ++ List.intercalate [',']
              (wrapped auxOpen [] ++ wrapped dbSizeOpen noKeysStats
                ++ [['{'] ++ ['\n'] ++ ['}'], typesOpen ++ typeJsonOf [] ++ ['}']])
              ++ [']'])) :=
  ⟨(entries_empty_omitted_whitespace_kept twoCommasDoc (twoCommasDoc.drop 1)
      ((twoCommasDoc.drop 1).take 22) [',', ','] [] [] noKeysStats [] (by decide) (by decide)
      (by decide) (by decide) (by decide) (by decide) (by decide)).1 (by decide),
    (entries_empty_omitted_whitespace_kept noKeysDoc (noKeysDoc.drop 1)
      ((noKeysDoc.drop 1).take 22) ['\n'] [] [] noKeysStats [] (by decide) (by decide)
      (by decide) (by decide) (by decide) (by decide) (by decide)).2.2.2 (by decide)
      (by decide)⟩

/-! ## The assembled document as JSON -/

theorem ws_nil : Ws [] := by
  intro c hc
  simp at hc

theorem jchars_of_plain {s : Str} (h : ∀ c ∈ s, c ≠ '"' ∧ c ≠ '\\' ∧ 0x20 ≤ c.toNat) :
    JChars s := by
  induction s with
  | nil => exact JChars.nil
  | cons c s ih =>
    have hc := h c (List.mem_cons_self c s)
    exact JChars.plain c s hc.1 hc.2.1 hc.2.2 (ih fun d hd => h d (List.mem_cons_of_mem c hd))

theorem jstring_of_plain {s : Str} (h : ∀ c ∈ s, c ≠ '"' ∧ c ≠ '\\' ∧ 0x20 ≤ c.toNat) :
    JString (['"'] ++ s ++ ['"']) :=
  ⟨s, jchars_of_plain h, rfl⟩

theorem json_labelled {k v : Str} (hk : JString k) (hv : Json .value v) :
    Json .object (['{'] ++ k ++ [':'] ++ v ++ ['}']) := by
  have h := Json.objectOf ws_nil ws_nil (Json.membersOne (Json.member hk ws_nil ws_nil hv))
    ws_nil ws_nil
  simpa using h

theorem json_wrapped_aux {v : Str} (hv : Json .object v) :
    Json .object (auxOpen ++ v ++ ['}']) := by
  have h := json_labelled (jstring_of_plain (s := "__aux__".toList) (by decide)) (Json.ofObject hv)
  simpa [auxOpen] using h

theorem json_wrapped_dbSize {v : Str} (hv : Json .object v) :
    Json .object (dbSizeOpen ++ v ++ ['}']) := by
  have h := json_labelled (jstring_of_plain (s := "__dbsize__".toList) (by decide))
    (Json.ofObject hv)
  simpa [dbSizeOpen] using h

theorem json_wrapped_types {v : Str} (hv : Json .object v) :
    Json .object (typesOpen ++ v ++ ['}']) := by
  have h := json_labelled (jstring_of_plain (s := "__types__".toList) (by decide))
    (Json.ofObject hv)
  simpa [typesOpen] using h

theorem json_wrapped_entries {e : Str} (he : MemberList e) :
    Json .object (['{'] ++ e ++ ['}']) := by
  obtain ⟨a, ms, b, ha, hms, hb, rfl⟩ := he
  have h := Json.objectOf ws_nil ha hms hb ws_nil
  simpa using h

theorem wrapped_all_objects {m s e t : Str}
    (hm : m = [] ∨ Json .object m) (hs : s = [] ∨ Json .object s)
    (he : e = [] ∨ MemberList e) (ht : t = [] ∨ Json .object t) :
    ∀ o ∈ wrapped auxOpen m ++ wrapped dbSizeOpen s ++ wrapped ['{'] e ++ wrapped typesOpen t,
      Json .object o := by
  intro o ho
  simp only [List.mem_append, wrapped] at ho
  rcases ho with ((ho | ho) | ho) | ho
  · split at ho
    · simp at ho
    · rename_i hne
      simp only [List.mem_singleton] at ho
      subst ho
      exact json_wrapped_aux (hm.resolve_left hne)
  · split at ho
    · simp at ho
    · rename_i hne
      simp only [List.mem_singleton] at ho
      subst ho
      exact json_wrapped_dbSize (hs.resolve_left hne)
  · split at ho
    · simp at ho
    · rename_i hne
      simp only [List.mem_singleton] at ho
      subst ho
      exact json_wrapped_entries (he.resolve_left hne)
  · split at ho
    · simp at ho
    · rename_i hne
      simp only [List.mem_singleton] at ho
      subst ho
      exact json_wrapped_types (ht.resolve_left hne)

theorem intercalate_cons_of_ne_nil (sep x : Str) {l : List Str} (h : l ≠ []) :
    List.intercalate sep (x :: l) = x ++ sep ++ List.intercalate sep l := by
  cases l with
  | nil => exact absurd rfl h
  | cons y l => simp [intercalate_cons]

theorem objectList_of_all_objects {objs : List Str} (hne : objs ≠ [])
    (h : ∀ o ∈ objs, Json .object o) : ObjectList (List.intercalate [','] objs) := by
  induction objs with
  | nil => exact absurd rfl hne
  | cons x l ih =>
    by_cases hl : l = []
    · subst hl
      simpa [List.intercalate] using ObjectList.one (h x (List.mem_cons_self _ _))
    · rw [intercalate_cons_of_ne_nil _ _ hl]
      exact ObjectList.cons (h x (List.mem_cons_self _ _))
        (ih hl fun o ho => h o (List.mem_cons_of_mem _ ho))

theorem elements_of_objectList {l : Str} (h : ObjectList l) : Json .elements l := by
  induction h with
  | one ho => exact Json.elementsOne (Json.ofObject ho)
  | cons ho _ ih =>
    have h := Json.elementsCons (Json.ofObject ho) ws_nil ws_nil ih
    simpa using h

theorem array_of_arrayOfObjects {s : Str} (h : ArrayOfObjects s) : Json .array s := by
  rcases h with rfl | ⟨l, hl, rfl⟩
  · have h := Json.arrayEmpty ws_nil ws_nil ws_nil
    simpa using h
  · have h := Json.arrayOf ws_nil ws_nil (elements_of_objectList hl) ws_nil ws_nil
    simpa using h

theorem jsonText_of_value {s : Str} (h : Json .value s) : JsonText s :=
  ⟨[], s, [], ws_nil, h, ws_nil, by simp⟩

theorem generateJson_arrayOfObjects {m s e t : Str}
    (hm : m = [] ∨ Json .object m) (hs : s = [] ∨ Json .object s)
    (he : e = [] ∨ MemberList e) (ht : t = [] ∨ Json .object t) :
    ArrayOfObjects (generateJson m s e t) := by
  rw [generateJson_eq_wrapped]
  by_cases hne : wrapped auxOpen m ++ wrapped dbSizeOpen s ++ wrapped ['{'] e
      ++ wrapped typesOpen t = []
  · left
    rw [hne]
    rfl
  · right
    exact ⟨_, objectList_of_all_objects hne (wrapped_all_objects hm hs he ht), rfl⟩

/-- C3: when the metadata and the size statistics are each empty or the text
of a JSON object, the entries are empty or a comma-joined list of object
members, and the type registry is empty or the text of a JSON object, the text
returned by `generateJson` is a JSON text, namely an array, and all its
elements are objects. -/
theorem generateJson_valid_json (metadata sizeStats entries typeRegistryJSON : Str)
    (hm : metadata = [] ∨ Json .object metadata)
    (hs : sizeStats = [] ∨ Json .object sizeStats)
    (he : entries = [] ∨ MemberList entries)
    (ht : typeRegistryJSON = [] ∨ Json .object typeRegistryJSON) :
    JsonText (generateJson metadata sizeStats entries typeRegistryJSON)
    ∧ Json .array (generateJson metadata sizeStats entries typeRegistryJSON)
    ∧ ArrayOfObjects (generateJson metadata sizeStats entries typeRegistryJSON) := by
  have h := generateJson_arrayOfObjects hm hs he ht
  exact ⟨jsonText_of_value (Json.ofArray (array_of_arrayOfObjects h)),
    array_of_arrayOfObjects h, h⟩

theorem json_number_one : Json .value ['1'] :=
  Json.number ⟨[], ['1'], [], [], Or.inl rfl,
    Or.inr ⟨'1', [], rfl, by decide, by decide, by simp⟩, Or.inl rfl, Or.inl rfl, rfl⟩

theorem json_number_zero : Json .value ['0'] :=
  Json.number ⟨[], ['0'], [], [], Or.inl rfl, Or.inl rfl, Or.inl rfl, Or.inl rfl, rfl⟩

theorem json_scenario_metadata : Json .object scenarioMetadata :=
  json_labelled (jstring_of_plain (s := "redis-ver".toList) (by decide))
    (Json.string (jstring_of_plain (s := "7.0".toList) (by decide)))

theorem json_scenario_sizeStats : Json .object scenarioSizeStats :=
  json_labelled (jstring_of_plain (s := "keys".toList) (by decide)) json_number_one

theorem json_scenario_entries : MemberList scenarioEntries :=
  ⟨[], _, [], ws_nil,
    Json.membersOne (Json.member (jstring_of_plain (s := "foo".toList) (by decide)) ws_nil ws_nil
      (Json.string (jstring_of_plain (s := "bar".toList) (by decide)))),
    ws_nil, by decide⟩

theorem json_scenario_types : Json .object (typeJsonOf scenarioRegistry) :=
  json_labelled (jstring_of_plain (s := "foo".toList) (by decide)) json_number_zero

theorem generateJson_valid_json_witness :
    JsonText (generateJson scenarioMetadata scenarioSizeStats
      scenarioEntries (typeJsonOf scenarioRegistry))
    ∧ Json .array (generateJson scenarioMetadata scenarioSizeStats
      scenarioEntries (typeJsonOf scenarioRegistry))
    ∧ ArrayOfObjects (generateJson scenarioMetadata scenarioSizeStats
      scenarioEntries (typeJsonOf scenarioRegistry)) :=
  generateJson_valid_json _ _ _ _ (Or.inr json_scenario_metadata) (Or.inr json_scenario_sizeStats)
    (Or.inr json_scenario_entries) (Or.inr json_scenario_types)

/-! ## Keys are copied without escaping -/

theorem qscan_append (q : QState) (a b : Str) : qscan q (a ++ b) = qscan (qscan q a) b := by
  simp [qscan]

theorem qscan_out_of_not_mem {s : Str} (h : '"' ∉ s) : qscan .out s = .out := by
  induction s with
  | nil => rfl
  | cons c s ih =>
    simp only [List.mem_cons, not_or] at h
    have hc : c ≠ '"' := fun hh => h.1 hh.symm
    simp only [qscan, List.foldl_cons, qstep, hc, ↓reduceIte]
    exact ih h.2

theorem qscan_str_of_not_mem {s : Str} (h1 : '"' ∉ s) (h2 : '\\' ∉ s) :
    qscan .str s = .str := by
  induction s with
  | nil => rfl
  | cons c s ih =>
    simp only [List.mem_cons, not_or] at h1 h2
    have hc1 : c ≠ '"' := fun hh => h1.1 hh.symm
    have hc2 : c ≠ '\\' := fun hh => h2.1 hh.symm
    simp only [qscan, List.foldl_cons, qstep, hc1, hc2, ↓reduceIte]
    exact ih h1.2 h2.2

theorem qscan_ws {s : Str} (h : Ws s) : qscan .out s = .out := by
  apply qscan_out_of_not_mem
  intro hm
  exact absurd (h _ hm) (by decide)

theorem isDigit_ne_quote {c : Char} (h : c.isDigit = true) : c ≠ '"' := by
  rintro rfl
  exact absurd h (by decide)

theorem isHex_ne_quote {c : Char} (h : isHex c = true) : c ≠ '"' := by
  rintro rfl
  exact absurd h (by decide)

theorem isHex_ne_backslash {c : Char} (h : isHex c = true) : c ≠ '\\' := by
  rintro rfl
  exact absurd h (by decide)

theorem qscan_digits {s : Str} (h : ∀ c ∈ s, c.isDigit = true) : qscan .out s = .out := by
  apply qscan_out_of_not_mem
  intro hm
  exact isDigit_ne_quote (h _ hm) rfl

theorem qscan_jint {s : Str} (h : JInt s) : qscan .out s = .out := by
  rcases h with rfl | ⟨c, ds, rfl, hc, _, hds⟩
  · rfl
  · apply qscan_digits
    intro d hd
    rcases List.mem_cons.mp hd with rfl | hd
    · exact hc
    · exact hds d hd

theorem qscan_jfrac {s : Str} (h : JFrac s) : qscan .out s = .out := by
  rcases h with rfl | ⟨ds, hds, rfl⟩
  · rfl
  · rw [show '.' :: ds = ['.'] ++ ds by rfl, qscan_append, show qscan .out ['.'] = .out from rfl,
      qscan_digits hds.2]

theorem qscan_jexp {s : Str} (h : JExp s) : qscan .out s = .out := by
  rcases h with rfl | ⟨e, sign, ds, he, hsign, hds, rfl⟩
  · rfl
  · rw [show e :: (sign ++ ds) = [e] ++ sign ++ ds by rfl, qscan_append, qscan_append]
    have h1 : qscan .out [e] = .out := by rcases he with rfl | rfl <;> rfl
    have h2 : qscan .out sign = .out := by rcases hsign with rfl | rfl | rfl <;> rfl
    rw [h1, h2, qscan_digits hds.2]

theorem qscan_jnumber {s : Str} (h : JNumber s) : qscan .out s = .out := by
  obtain ⟨sign, i, f, e, hsign, hi, hf, he, rfl⟩ := h
  have h1 : qscan .out sign = .out := by rcases hsign with rfl | rfl <;> rfl
  simp only [qscan_append, h1, qscan_jint hi, qscan_jfrac hf, qscan_jexp he]

theorem qstep_str_plain {c : Char} (h1 : c ≠ '"') (h2 : c ≠ '\\') : qstep .str c = .str := by
  simp [qstep, h1, h2]

theorem qstep_str_backslash : qstep .str '\\' = .esc := by decide

theorem qscan_jchars {s : Str} (h : JChars s) : qscan .str s = .str := by
  induction h with
  | nil => rfl
  | plain c s h1 h2 _ _ ih =>
    simp only [qscan, List.foldl_cons, qstep, h1, h2, ↓reduceIte]
    exact ih
  | escape c s _ _ ih =>
    show qscan (qstep (qstep .str '\\') c) s = .str
    rw [qstep_str_backslash]
    exact ih
  | unicode a b c d s ha hb hc hd _ ih =>
    show qscan (qstep (qstep (qstep (qstep (qstep (qstep .str '\\') 'u') a) b) c) d) s = .str
    rw [qstep_str_backslash, show qstep .esc 'u' = .str from rfl,
      qstep_str_plain (isHex_ne_quote ha) (isHex_ne_backslash ha),
      qstep_str_plain (isHex_ne_quote hb) (isHex_ne_backslash hb),
      qstep_str_plain (isHex_ne_quote hc) (isHex_ne_backslash hc),
      qstep_str_plain (isHex_ne_quote hd) (isHex_ne_backslash hd)]
    exact ih

theorem qscan_jstring {s : Str} (h : JString s) : qscan .out s = .out := by
  obtain ⟨body, hb, rfl⟩ := h
  rw [qscan_append, qscan_append]
  have h1 : qscan .out ['"'] = .str := rfl
  rw [h1, qscan_jchars hb]
  rfl

theorem qscan_json {k : Cat} {s : Str} (h : Json k s) : qscan .out s = .out := by
  induction h with
  | litFalse => rfl
  | litNull => rfl
  | litTrue => rfl
  | ofObject _ ih => exact ih
  | ofArray _ ih => exact ih
  | number h => exact qscan_jnumber h
  | string h => exact qscan_jstring h
  | objectEmpty ha hb hc =>
    simp only [qscan_append, qscan_ws ha, qscan_ws hb, qscan_ws hc,
      show qscan .out ['{'] = .out from rfl, show qscan .out ['}'] = .out from rfl]
  | objectOf ha hb _ hc hd ih =>
    simp only [qscan_append, qscan_ws ha, qscan_ws hb, qscan_ws hc, qscan_ws hd, ih,
      show qscan .out ['{'] = .out from rfl, show qscan .out ['}'] = .out from rfl]
  | arrayEmpty ha hb hc =>
    simp only [qscan_append, qscan_ws ha, qscan_ws hb, qscan_ws hc,
      show qscan .out ['['] = .out from rfl, show qscan .out [']'] = .out from rfl]
  | arrayOf ha hb _ hc hd ih =>
    simp only [qscan_append, qscan_ws ha, qscan_ws hb, qscan_ws hc, qscan_ws hd, ih,
      show qscan .out ['['] = .out from rfl, show qscan .out [']'] = .out from rfl]
  | member hk ha hb _ ih =>
    simp only [qscan_append, qscan_jstring hk, qscan_ws ha, qscan_ws hb, ih,
      show qscan .out [':'] = .out from rfl]
  | membersOne _ ih => exact ih
  | membersCons _ ha hb _ ih1 ih2 =>
    simp only [qscan_append, qscan_ws ha, qscan_ws hb, ih1, ih2,
      show qscan .out [','] = .out from rfl]
  | elementsOne _ ih => exact ih
  | elementsCons _ ha hb _ ih1 ih2 =>
    simp only [qscan_append, qscan_ws ha, qscan_ws hb, ih1, ih2,
      show qscan .out [','] = .out from rfl]

theorem qscan_jsonText {s : Str} (h : JsonText s) : qscan .out s = .out := by
  obtain ⟨a, v, b, ha, hv, hb, rfl⟩ := h
  simp only [qscan_append, qscan_ws ha, qscan_json hv, qscan_ws hb]

theorem intercalate_concat (sep last : Str) (l : List Str) :
    List.intercalate sep (l ++ [last]) = (l.map (· ++ sep)).flatten ++ last := by
  induction l with
  | nil => simp [List.intercalate]
  | cons x l ih =>
    rw [List.cons_append, intercalate_cons_of_ne_nil _ _ (by simp), ih]
    simp

theorem qscan_flatten_out {l : List Str} (h : ∀ o ∈ l, qscan .out o = .out) :
    qscan .out (l.map (· ++ [','])).flatten = .out := by
  induction l with
  | nil => rfl
  | cons x l ih =>
    simp only [List.map_cons, List.flatten_cons, qscan_append, h x (List.mem_cons_self _ _)]
    rw [show qscan .out [','] = .out from rfl]
    exact ih fun o ho => h o (List.mem_cons_of_mem _ ho)

theorem generateJson_open_string {m s e t : Str}
    (hm : m = [] ∨ Json .object m) (hs : s = [] ∨ Json .object s)
    (he : e = [] ∨ MemberList e) (ht : qscan .out (typesOpen ++ t ++ ['}']) = .str) :
    qscan .out (generateJson m s e t) = .str := by
  have htne : t ≠ [] := by
    rintro rfl
    exact absurd ht (by decide)
  have hobj : ∀ o ∈ wrapped auxOpen m ++ wrapped dbSizeOpen s ++ wrapped ['{'] e,
      Json .object o := fun o ho =>
    wrapped_all_objects hm hs he (Or.inl (rfl : ([] : Str) = [])) o (List.mem_append_left _ ho)
  rw [generateJson_eq_wrapped]
  rw [show wrapped typesOpen t = [typesOpen ++ t ++ ['}']] by simp [wrapped, htne]]
  rw [intercalate_concat]
  simp only [qscan_append]
  rw [show qscan .out ['['] = .out from rfl]
  rw [qscan_flatten_out fun o ho => qscan_json (hobj o ho)]
  simp only [qscan_append] at ht
  rw [ht]
  rfl

/-- C10: the serialisation copies a key between double quotes as it is, with
no escaping.  For the registry whose single key is a double quote, and for the
one whose single key is a backslash, the serialised registry is not a JSON
object, and the document assembled from it is not a JSON text whatever valid
metadata, size statistics and entries it is assembled with. -/
theorem unescaped_key_breaks_json :
    (∀ key code, typeJsonOf [⟨key, code⟩]
        = "\x7b\"".toList ++ key ++ "\":".toList ++ to_string code ++ "\x7d".toList)
    ∧ typeJsonOf quoteRegistry = quoteTypes
    ∧ typeJsonOf backslashRegistry = backslashTypes
    ∧ ¬ Json .object (typeJsonOf quoteRegistry)
    ∧ ¬ Json .object (typeJsonOf backslashRegistry)
    ∧ (∀ metadata sizeStats entries : Str,
        (metadata = [] ∨ Json .object metadata) →
        (sizeStats = [] ∨ Json .object sizeStats) →
        (entries = [] ∨ MemberList entries) →
        ¬ JsonText (generateJson metadata sizeStats entries (typeJsonOf quoteRegistry))
        ∧ ¬ JsonText (generateJson metadata sizeStats entries (typeJsonOf backslashRegistry))) := by
  refine ⟨fun key code => ?_, by decide, by decide, fun h => ?_, fun h => ?_,
    fun m s e hm hs he => ⟨?_, ?_⟩⟩
  · rw [typeJsonOf_eq]
    simp [List.intercalate, typeEntry]
  · exact absurd (qscan_json h) (by decide)
  · exact absurd (qscan_json h) (by decide)
  · intro h
    have h1 := qscan_jsonText h
    rw [generateJson_open_string hm hs he (by decide)] at h1
    exact absurd h1 (by decide)
  · intro h
    have h1 := qscan_jsonText h
    rw [generateJson_open_string hm hs he (by decide)] at h1
    exact absurd h1 (by decide)

theorem unescaped_key_breaks_json_witness :
    ¬ JsonText (generateJson scenarioMetadata scenarioSizeStats scenarioEntries
      (typeJsonOf quoteRegistry)) :=
  (unescaped_key_breaks_json.2.2.2.2.2 _ _ _ (Or.inr json_scenario_metadata)
    (Or.inr json_scenario_sizeStats) (Or.inr json_scenario_entries)).1

end Addon
